import Mathlib

/-!
Verification development for the AnkhWaveStudio WASM plugin templates
(`effect_template.c` and `instrument_template.c`).

The C code is shallowly embedded: 32-bit floats are modelled as exact
rationals (`ℚ`) — every float operation appearing in the templates is an
algebraic operation, comparison, or a call into `libm`; the `libm`
transcendentals (`sinf`, `powf`, `tanhf`) are abstracted as an arbitrary
parameter structure `Transc`, while everything else is computed exactly.
C `int` is modelled as `ℤ` and the 32-bit unsigned noise state as a natural
number reduced mod 2^32.  The effect's delay buffer is allocated by `init`
but never read or written by any processing function, so it is not part of
the state.  Structures and functions keep the C names.
-/

namespace AnkhWave

/-- `clamp` from both templates: clamp a value into `[min, max]`. -/
def clamp (value lo hi : ℚ) : ℚ :=
  if value < lo then lo else if value > hi then hi else value

/-- `lerp` from the effect template: `a + (b - a) * t`. -/
def lerp (a b t : ℚ) : ℚ := a + (b - a) * t


-- ===========================================================================
-- Effect template (effect_template.c)
-- ===========================================================================

namespace Effect

/-- Float literal `3.14159265f` used in the effect's `lowpass`. -/
def piF : ℚ := (314159265 / 100000000 : ℚ)

/-- `NUM_PARAMETERS` of the effect template. -/
def numParameters : ℤ := 4

/-- Plugin state of the effect template: sample rate, the four parameters,
and the per-channel one-pole filter state.  The delay buffer is allocated
but unused by every processing function and is therefore omitted. -/
structure State where
  sampleRate : ℚ
  bufferSize : ℤ
  params : List ℚ
  filterState : List ℚ
deriving DecidableEq

/-- Global initial state of the effect translation unit
(static initialisers of `sampleRate`, `bufferSize`, `params`, `filterState`). -/
def state0 : State :=
  { sampleRate := 44100, bufferSize := 128
    params := [1, (1/2), 1000, (1/2)], filterState := [0, 0] }

/-- `init(sr, bs)`: store the sample rate and buffer size and zero the filter
state (the delay-buffer allocation carries no observable processing state). -/
def init (sr : ℚ) (bs : ℤ) (s : State) : State :=
  { s with sampleRate := sr, bufferSize := bs, filterState := [0, 0] }

/-- The filter coefficient of `lowpass`: `alpha = dt / (rc + dt)` with
`rc = 1/(2*pi*cutoff)` and `dt = 1/sampleRate`. -/
def alphaOf (sr cutoff : ℚ) : ℚ :=
  (1 / sr) / (1 / (2 * piF * cutoff) + 1 / sr)

/-- `lowpass`: one-pole lowpass; returns the new state, which is also the
output sample: `state = lerp(state, input, alpha)`. -/
def lowpass (sr input st cutoff : ℚ) : ℚ :=
  lerp st input (alphaOf sr cutoff)

/-- Lower bound of the declared range of effect parameter `i` (cases of the
`switch` in the effect's `setParameter`). -/
def paramMin : ℕ → ℚ
  | 0 => 0
  | 1 => 0
  | 2 => 20
  | 3 => 0
  | _ => 0

/-- Upper bound of the declared range of effect parameter `i`. -/
def paramMax : ℕ → ℚ
  | 0 => 2
  | 1 => 1
  | 2 => 20000
  | 3 => 1
  | _ => 0

/-- One step of the effect's `process` loop body, for one interleaved stereo
frame `(L, R)`: run the per-channel lowpass, cross-fade dry and wet by the
mix parameter, apply gain.  Returns the updated state and the output frame. -/
def processFrame (s : State) (x : ℚ × ℚ) : State × (ℚ × ℚ) :=
  let gain := s.params.getD 0 0
  let mix := s.params.getD 1 0
  let cutoff := s.params.getD 2 0
  let f0 := lowpass s.sampleRate x.1 (s.filterState.getD 0 0) cutoff
  let f1 := lowpass s.sampleRate x.2 (s.filterState.getD 1 0) cutoff
  ({ s with filterState := (s.filterState.set 0 f0).set 1 f1 },
   (lerp x.1 f0 mix * gain, lerp x.2 f1 mix * gain))

/-- `process(input, output, numSamples)` on interleaved stereo, with the
input given as a list of `(L, R)` frames; returns the final state and the
output frames. -/
def process (s : State) : List (ℚ × ℚ) → State × List (ℚ × ℚ)
  | [] => (s, [])
  | x :: rest =>
    let p := processFrame s x
    let q := process p.1 rest
    (q.1, p.2 :: q.2)

/-- One channel's inner loop of `processBlock`: starting at planar offset
`ofs`, process `k` consecutive samples of the planar input through the
one-pole filter with running state `st`, writing the planar output buffer
(modelled as a total function on indices). -/
def chanLoop (sr gain mix cutoff : ℚ) (inp : ℕ → ℚ) :
    ℕ → ℕ → ℚ → (ℕ → ℚ) → ℚ × (ℕ → ℚ)
  | _, 0, st, out => (st, out)
  | ofs, k+1, st, out =>
    let x := inp ofs
    let f := lowpass sr x st cutoff
    chanLoop sr gain mix cutoff inp (ofs+1) k f
      (Function.update out ofs (lerp x f mix * gain))

/-- The outer channel loop of `processBlock`, over the channel indices that
the C loop actually visits (`ch < numChannels && ch < NUM_CHANNELS`). -/
def pbLoop (sr gain mix cutoff : ℚ) (inp : ℕ → ℚ) (ns : ℕ) :
    List ℕ → List ℚ → (ℕ → ℚ) → List ℚ × (ℕ → ℚ)
  | [], fs, out => (fs, out)
  | ch :: rest, fs, out =>
    let p := chanLoop sr gain mix cutoff inp (ch * ns) ns (fs.getD ch 0) out
    pbLoop sr gain mix cutoff inp ns rest (fs.set ch p.1) p.2

/-- `processBlock(input, output, numSamples, numChannels)` on planar
buffers: channel `ch` occupies indices `[ch*numSamples, (ch+1)*numSamples)`.
Only the first `min numChannels 2` channels are visited. -/
def processBlock (s : State) (inp out : ℕ → ℚ) (ns nc : ℕ) : State × (ℕ → ℚ) :=
  let p := pbLoop s.sampleRate (s.params.getD 0 0) (s.params.getD 1 0)
    (s.params.getD 2 0) inp ns (List.range (min nc 2)) s.filterState out
  ({ s with filterState := p.1 }, p.2)

/-- `getParameter(index)`: the stored value for `0 <= index < 4`, else 0. -/
def getParameter (s : State) (index : ℤ) : ℚ :=
  if 0 ≤ index ∧ index < numParameters then s.params.getD index.toNat 0 else 0

/-- `setParameter(index, value)`: clamp into the declared range and store;
out-of-range index is a no-op. -/
def setParameter (s : State) (index : ℤ) (value : ℚ) : State :=
  if 0 ≤ index ∧ index < numParameters then
    { s with params :=
        s.params.set index.toNat (clamp value (paramMin index.toNat) (paramMax index.toNat)) }
  else s

/-- The output frame at index `n` when the effect is driven with the
constant stereo frame `(c, c)` for `n+1` samples. -/
def dcRun (s : State) (c : ℚ) (n : ℕ) : ℚ × ℚ :=
  (process s (List.replicate (n+1) (c, c))).2.getD n (0, 0)

end Effect

-- ===========================================================================
-- Instrument template (instrument_template.c)
-- ===========================================================================

namespace Inst

/-- Float literal `PI` of the instrument (20 decimal digits in the source). -/
def piF : ℚ := (314159265358979323846 / 100000000000000000000 : ℚ)

/-- `TWO_PI = 2.0f * PI`. -/
def twoPiF : ℚ := 2 * piF

/-- `MAX_VOICES`. -/
def maxVoices : ℕ := 16

/-- `NUM_PARAMETERS` of the instrument template. -/
def numParameters : ℤ := 8

/-- The `Voice` struct.  `envStage` uses the C encoding
`0 = Idle (off)`, `1 = Attack`, `2 = Decay`, `3 = Sustain`, `4 = Release`. -/
structure Voice where
  active : Bool
  note : ℤ
  velocity : ℚ
  phase : ℚ
  phaseIncrement : ℚ
  envelope : ℚ
  envStage : ℕ
  filterState0 : ℚ
  filterState1 : ℚ
  lfoPhase : ℚ
deriving DecidableEq

/-- A zeroed voice (the state `init` puts every pool slot into, which is
also each slot's value after the C zero-initialisation of the global array). -/
def voice0 : Voice :=
  { active := false, note := 0, velocity := 0, phase := 0, phaseIncrement := 0
    envelope := 0, envStage := 0, filterState0 := 0, filterState1 := 0, lfoPhase := 0 }

/-- The whole mutable state of the instrument translation unit. -/
structure State where
  sampleRate : ℚ
  bufferSize : ℤ
  voices : List Voice
  params : List ℚ
  masterVolume : ℚ
  pitchBendValue : ℚ
  modWheel : ℚ
  noiseState : ℕ
deriving DecidableEq

/-- Global initial state (static initialisers of the translation unit). -/
def state0 : State :=
  { sampleRate := 44100, bufferSize := 128
    voices := List.replicate maxVoices voice0
    params := [0, (1/100), (1/10), (7/10), (3/10), 5000, (3/10), 0]
    masterVolume := (4/5), pitchBendValue := 0, modWheel := 0
    noiseState := 12345 }

/-- `init(sr, bs)`: store rate and buffer size, zero every voice. -/
def init (sr : ℚ) (bs : ℤ) (s : State) : State :=
  { s with sampleRate := sr, bufferSize := bs
           voices := List.replicate maxVoices voice0 }

/-- Lower bound of the declared range of instrument parameter `i` (cases of
the `switch` in the instrument's `setParameter`). -/
def paramMin : ℕ → ℚ
  | 0 => 0
  | 1 => (1/1000)
  | 2 => (1/1000)
  | 3 => 0
  | 4 => (1/1000)
  | 5 => 20
  | 6 => 0
  | 7 => -1
  | _ => 0

/-- Upper bound of the declared range of instrument parameter `i`. -/
def paramMax : ℕ → ℚ
  | 0 => 4
  | 1 => 2
  | 2 => 2
  | 3 => 1
  | 4 => 5
  | 5 => 20000
  | 6 => 1
  | 7 => 1
  | _ => 0

/-- `getParameter(index)`: the stored value for `0 <= index < 8`, else 0. -/
def getParameter (s : State) (index : ℤ) : ℚ :=
  if 0 ≤ index ∧ index < numParameters then s.params.getD index.toNat 0 else 0

/-- `setParameter(index, value)`: clamp into the declared range and store;
out-of-range index is a no-op. -/
def setParameter (s : State) (index : ℤ) (value : ℚ) : State :=
  if 0 ≤ index ∧ index < numParameters then
    { s with params :=
        s.params.set index.toNat (clamp value (paramMin index.toNat) (paramMax index.toNat)) }
  else s

end Inst

-- ===========================================================================
-- Instrument: oscillator, envelope, filter, voice pool, mixer
-- ===========================================================================

/-- The `libm` transcendentals called by the instrument, abstracted as
arbitrary rational functions (`sinf`, `powf`, `tanhf`). -/
structure Transc where
  sinf : ℚ → ℚ
  powf : ℚ → ℚ → ℚ
  tanhf : ℚ → ℚ

namespace Inst

/-- `noteToFrequency`: `440 * 2^((note - 69)/12)`. -/
def noteToFrequency (T : Transc) (note : ℤ) : ℚ :=
  440 * T.powf 2 (((note : ℚ) - 69) / 12)

/-- `frequencyToPhaseIncrement`: `freq / sampleRate`. -/
def frequencyToPhaseIncrement (sr freq : ℚ) : ℚ := freq / sr

/-- `polyblep`: polynomial band-limited step correction. -/
def polyblep (t dt : ℚ) : ℚ :=
  if t < dt then
    (t / dt) + (t / dt) - (t / dt) * (t / dt) - 1
  else if t > 1 - dt then
    ((t - 1) / dt) * ((t - 1) / dt) + ((t - 1) / dt) + ((t - 1) / dt) + 1
  else 0

/-- One step of the linear congruential noise generator
(`state * 1103515245 + 12345`, 32-bit wraparound). -/
def noiseStep (ns : ℕ) : ℕ := (ns * 1103515245 + 12345) % 4294967296

/-- The sample produced from a (post-step) noise state:
`((state >> 16) & 0x7FFF) / 16383.5 - 1`. -/
def noiseVal (ns : ℕ) : ℚ := (((ns / 65536) % 32768 : ℕ) : ℚ) / (32767/2) - 1

/-- C cast `(int)` of a float: truncation toward zero. -/
def truncQ (q : ℚ) : ℤ := if 0 ≤ q then ⌊q⌋ else ⌈q⌉

/-- `fmodf(x, 1.0f)`. -/
def fmod1 (x : ℚ) : ℚ := x - ((truncQ x : ℤ) : ℚ)

/-- `generateOscillator`: produce one sample for waveform `wf`
(0 sine, 1 square, 2 saw, 3 triangle, 4 noise; any other value leaves the
sample 0), then advance and wrap the phase.  Returns the sample, the updated
voice, and the updated global noise state. -/
def generateOscillator (T : Transc) (wf : ℤ) (v : Voice) (ns : ℕ) :
    ℚ × Voice × ℕ :=
  let t := v.phase
  let dt := v.phaseIncrement
  let p :=
    if wf = 0 then (T.sinf (t * twoPiF), ns)
    else if wf = 1 then
      (((if t < (1/2) then (1 : ℚ) else -1) - polyblep t dt)
        + polyblep (fmod1 (t + (1/2))) dt, ns)
    else if wf = 2 then (2 * t - 1 - polyblep t dt, ns)
    else if wf = 3 then (4 * |t - (1/2)| - 1, ns)
    else if wf = 4 then (noiseVal (noiseStep ns), noiseStep ns)
    else (0, ns)
  let phase1 := t + dt
  (p.1, { v with phase := if phase1 ≥ 1 then phase1 - 1 else phase1 }, p.2)

/-- `updateEnvelope`: one per-sample step of the ADSR state machine
(the C `switch` on `envStage`; stages outside 0..4 fall through unchanged). -/
def updateEnvelope (sr : ℚ) (ps : List ℚ) (v : Voice) : Voice :=
  match v.envStage with
  | 1 =>
    let e := v.envelope + 1 / (ps.getD 1 0 * sr)
    if e ≥ 1 then { v with envelope := 1, envStage := 2 }
    else { v with envelope := e }
  | 2 =>
    let e := v.envelope - (1 - ps.getD 3 0) / (ps.getD 2 0 * sr)
    if e ≤ ps.getD 3 0 then { v with envelope := ps.getD 3 0, envStage := 3 }
    else { v with envelope := e }
  | 3 => v
  | 4 =>
    let e := v.envelope - v.envelope / (ps.getD 4 0 * sr)
    if e ≤ (1/1000) then { v with envelope := 0, envStage := 0, active := false }
    else { v with envelope := e }
  | _ => v

/-- `processFilter`: the 2-pole state-variable filter, with the cutoff
modulated up by half the envelope and re-clamped.  Returns the lowpass tap
and the updated voice. -/
def processFilter (T : Transc) (sr : ℚ) (ps : List ℚ) (v : Voice) (input : ℚ) :
    ℚ × Voice :=
  let cutoff := clamp (ps.getD 5 0 * (1 + v.envelope * (1/2))) 20 20000
  let f := 2 * T.sinf (piF * cutoff / sr)
  let q := 1 - ps.getD 6 0 * (9/10)
  let low := v.filterState1 + f * v.filterState0
  let high := input - low - q * v.filterState0
  let band := f * high + v.filterState0
  (low, { v with filterState0 := band, filterState1 := low })

/-- The body of the per-voice loop inside `process`, for one sample:
skip inactive voices; otherwise recompute the phase increment from pitch
bend and detune, run the oscillator, the filter, form the contribution
`filtered * envelope * velocity`, and only then advance the envelope.
Returns the updated voice, noise state, and the contribution. -/
def voiceStep (T : Transc) (sr : ℚ) (ps : List ℚ) (bend : ℚ) (wf : ℤ)
    (v : Voice) (ns : ℕ) : Voice × ℕ × ℚ :=
  if v.active then
    let freq := noteToFrequency T v.note
      * T.powf 2 ((bend * 2 + ps.getD 7 0) / 12)
    let v1 := { v with phaseIncrement := frequencyToPhaseIncrement sr freq }
    let o := generateOscillator T wf v1 ns
    let pf := processFilter T sr ps o.2.1 o.1
    let voiced := pf.1 * pf.2.envelope * pf.2.velocity
    (updateEnvelope sr ps pf.2, o.2.2, voiced)
  else (v, ns, 0)

/-- The per-sample loop over the voice pool: thread the noise state through
the voices in index order and accumulate the contributions. -/
def voicesStep (T : Transc) (sr : ℚ) (ps : List ℚ) (bend : ℚ) (wf : ℤ) :
    List Voice → ℕ → List Voice × ℕ × ℚ
  | [], ns => ([], ns, 0)
  | v :: rest, ns =>
    let p := voiceStep T sr ps bend wf v ns
    let q := voicesStep T sr ps bend wf rest p.2.1
    (p.1 :: q.1, q.2.1, p.2.2 + q.2.2)

/-- One output sample of `process`: run every voice, scale the sum by the
master volume, soft-clip with `tanh`.  Returns the updated state and the
mono sample written to both output channels. -/
def processSample (T : Transc) (s : State) : State × ℚ :=
  let wf := truncQ (s.params.getD 0 0)
  let p := voicesStep T s.sampleRate s.params s.pitchBendValue wf s.voices s.noiseState
  ({ s with voices := p.1, noiseState := p.2.1 },
   T.tanhf (p.2.2 * s.masterVolume))

/-- `process(input, output, numSamples)`: the input is ignored; the output
is interleaved stereo with both channels carrying the same mono sample. -/
def process (T : Transc) : ℕ → State → State × List ℚ
  | 0, s => (s, [])
  | n+1, s =>
    let p := processSample T s
    let q := process T n p.1
    (q.1, p.2 :: p.2 :: q.2)

/-- The per-voice effect of `reset`: deactivate, zero envelope, stage and
filter state. -/
def killVoice (v : Voice) : Voice :=
  { v with active := false, envelope := 0, envStage := 0, filterState0 := 0, filterState1 := 0 }

/-- `reset()` (also reached from `controlChange` cc 123): deactivate every
voice, zero envelope, stage and filter state, zero pitch bend and mod wheel. -/
def reset (s : State) : State :=
  { s with voices := s.voices.map killVoice, pitchBendValue := 0, modWheel := 0 }

/-- The voice-selection scan of `noteOn`: `i` is the absolute index of the
head of `vs`; `oldestIndex`/`oldestTime` track the stealing candidate.  The
scan stops at the first inactive voice (the C `break`); the disjunct `i = 0`
makes index 0 a stealing candidate regardless of its envelope. -/
def scanVoices : List Voice → ℕ → ℚ → ℕ → ℕ
  | [], _, _, oldestIndex => oldestIndex
  | v :: rest, i, oldestTime, oldestIndex =>
    if v.active = false then i
    else if v.envelope < oldestTime ∨ i = 0 then
      scanVoices rest (i+1) v.envelope i
    else scanVoices rest (i+1) oldestTime oldestIndex

/-- The index `noteOn` allocates: the scan started with
`oldestTime = 0.0f`, `oldestIndex = 0`. -/
def chooseVoice (vs : List Voice) : ℕ := scanVoices vs 0 0 0

/-- The voice record `noteOn` writes into the chosen slot (`lfoPhase` is the
only per-voice field it does not touch). -/
def startVoice (T : Transc) (sr : ℚ) (note vel : ℤ) (v : Voice) : Voice :=
  { v with active := true, note := note, velocity := (vel : ℚ) / 127
           phase := 0
           phaseIncrement := frequencyToPhaseIncrement sr (noteToFrequency T note)
           envelope := 0, envStage := 1
           filterState0 := 0, filterState1 := 0 }

/-- `noteOff(note, channel)`: move every active voice on `note` that is not
already releasing into the Release stage. -/
def noteOff (s : State) (note channel : ℤ) : State :=
  { s with voices := s.voices.map fun v =>
      if v.active = true ∧ v.note = note ∧ v.envStage ≠ 4 then
        { v with envStage := 4 }
      else v }

/-- `noteOn(note, velocity, channel)`: velocity 0 is a note-off; otherwise
allocate the first inactive voice, or steal the scan's candidate, and
restart it. -/
def noteOn (T : Transc) (s : State) (note vel channel : ℤ) : State :=
  if vel = 0 then noteOff s note channel
  else
    let j := chooseVoice s.voices
    { s with voices :=
        s.voices.set j (startVoice T s.sampleRate note vel (s.voices.getD j voice0)) }

/-- `controlChange(cc, value, channel)`. -/
def controlChange (s : State) (cc value channel : ℤ) : State :=
  let nv : ℚ := (value : ℚ) / 127
  if cc = 1 then { s with modWheel := nv }
  else if cc = 7 then { s with masterVolume := nv }
  else if cc = 74 then { s with params := s.params.set 5 (20 + nv * 19980) }
  else if cc = 71 then { s with params := s.params.set 6 nv }
  else if cc = 123 then reset s
  else s

/-- `pitchBend(value, channel)`: 14-bit value, centre 8192, mapped to
`[-1, 1]`. -/
def pitchBend (s : State) (value channel : ℤ) : State :=
  { s with pitchBendValue := ((value : ℚ) - 8192) / 8192 }

end Inst

/-- A concrete instantiation of the abstracted transcendentals, used to
evaluate the model at concrete inputs. -/
def T0 : Transc := { sinf := fun _ => 0, powf := fun _ _ => 1, tanhf := fun x => x }


/-- The per-voice invariant: a voice is marked inactive exactly when its
envelope stage is Idle (0). -/
def VoiceInv (v : Inst.Voice) : Prop := v.active = false ↔ v.envStage = 0

/-- The pool-wide invariant. -/
def StateInv (s : Inst.State) : Prop := ∀ v ∈ s.voices, VoiceInv v

/-- Number of active voices in a pool. -/
def activeCount (vs : List Inst.Voice) : ℕ := vs.countP fun v => v.active

/-- `k` successive note-ons (note 60, velocity 100) starting from state `s`. -/
def noteOnIter (T : Transc) : ℕ → Inst.State → Inst.State
  | 0, s => s
  | k+1, s => Inst.noteOn T (noteOnIter T k s) 60 100 0

/-- The contribution one voice makes to the current sample, written
independently of the loop body: inactive voices contribute 0; an active
voice contributes `filteredOutput * envelope * velocity` where the envelope
level and velocity are the voice's values BEFORE `updateEnvelope` runs for
this sample. -/
def contribOf (T : Transc) (sr : ℚ) (ps : List ℚ) (bend : ℚ) (wf : ℤ)
    (v : Inst.Voice) (ns : ℕ) : ℚ :=
  if v.active then
    let w : Inst.Voice :=
      { v with phaseIncrement := (Inst.frequencyToPhaseIncrement sr
          (Inst.noteToFrequency T v.note * T.powf 2 ((bend * 2 + ps.getD 7 0) / 12))) }
    let o := Inst.generateOscillator T wf w ns
    (Inst.processFilter T sr ps o.2.1 o.1).1 * v.envelope * v.velocity
  else 0

/-- How one voice advances the shared noise state: only an active voice
rendered with the noise waveform (4) steps the generator. -/
def nsAfterVoice (wf : ℤ) (v : Inst.Voice) (ns : ℕ) : ℕ :=
  if v.active ∧ wf = 4 then Inst.noiseStep ns else ns

/-- The spec-side per-sample mix: the sum over the pool, in index order, of
each voice's contribution, threading the shared noise state. -/
def mixSum (T : Transc) (sr : ℚ) (ps : List ℚ) (bend : ℚ) (wf : ℤ) :
    List Inst.Voice → ℕ → ℚ
  | [], _ => 0
  | v :: rest, ns =>
    contribOf T sr ps bend wf v ns
      + mixSum T sr ps bend wf rest (nsAfterVoice wf v ns)

/-- The instrument state at the start of sample `i` of a `process` run. -/
def stateAt (T : Transc) (s : Inst.State) : ℕ → Inst.State
  | 0 => s
  | i+1 => (Inst.processSample T (stateAt T s i)).1


-- ===========================================================================
-- Shared parameter-store lemmas
-- ===========================================================================

theorem clamp_le_right (v lo hi : ℚ) (h : lo ≤ hi) : clamp v lo hi ≤ hi := by
  unfold clamp; split_ifs <;> linarith

theorem clamp_ge_left (v lo hi : ℚ) (h : lo ≤ hi) : lo ≤ clamp v lo hi := by
  unfold clamp; split_ifs <;> linarith

theorem clamp_eq_self (v lo hi : ℚ) (h1 : lo ≤ v) (h2 : v ≤ hi) : clamp v lo hi = v := by
  unfold clamp; split_ifs <;> linarith

/-- Helper: reading back the element just stored with `List.set`. -/
theorem getD_set_self {α : Type} (l : List α) (n : ℕ) (a d : α) (h : n < l.length) :
    (l.set n a).getD n d = a := by
  induction l generalizing n with
  | nil => simp at h
  | cons x xs ih =>
    cases n with
    | zero => rfl
    | succ m =>
      simp only [List.set_cons_succ, List.getD_cons_succ]
      exact ih m (by simpa using h)

/-- Helper: `List.set` leaves other positions unchanged. -/
theorem getD_set_ne {α : Type} (l : List α) (n m : ℕ) (a d : α) (h : n ≠ m) :
    (l.set n a).getD m d = l.getD m d := by
  induction l generalizing n m with
  | nil => rfl
  | cons x xs ih =>
    cases n with
    | zero => cases m with
      | zero => exact absurd rfl h
      | succ k => rfl
    | succ n1 => cases m with
      | zero => rfl
      | succ k =>
        simp only [List.set_cons_succ, List.getD_cons_succ]
        exact ih n1 k (fun hc => h (by rw [hc]))


theorem Effect.eff_paramMin_le_paramMax (n : ℕ) : Effect.paramMin n ≤ Effect.paramMax n := by
  match n with
  | 0 => norm_num [Effect.paramMin, Effect.paramMax]
  | 1 => norm_num [Effect.paramMin, Effect.paramMax]
  | 2 => norm_num [Effect.paramMin, Effect.paramMax]
  | 3 => norm_num [Effect.paramMin, Effect.paramMax]
  | (m+4) => simp [Effect.paramMin, Effect.paramMax]

theorem Inst.inst_paramMin_le_paramMax (n : ℕ) : Inst.paramMin n ≤ Inst.paramMax n := by
  match n with
  | 0 => norm_num [Inst.paramMin, Inst.paramMax]
  | 1 => norm_num [Inst.paramMin, Inst.paramMax]
  | 2 => norm_num [Inst.paramMin, Inst.paramMax]
  | 3 => norm_num [Inst.paramMin, Inst.paramMax]
  | 4 => norm_num [Inst.paramMin, Inst.paramMax]
  | 5 => norm_num [Inst.paramMin, Inst.paramMax]
  | 6 => norm_num [Inst.paramMin, Inst.paramMax]
  | 7 => norm_num [Inst.paramMin, Inst.paramMax]
  | (m+8) => simp [Inst.paramMin, Inst.paramMax]

theorem Effect.eff_set_get (s : Effect.State) (i : ℤ) (v : ℚ)
    (hl : s.params.length = 4) (h0 : 0 ≤ i) (h4 : i < 4) :
    Effect.getParameter (Effect.setParameter s i v) i
      = clamp v (Effect.paramMin i.toNat) (Effect.paramMax i.toNat) := by
  have hc : 0 ≤ i ∧ i < Effect.numParameters := ⟨h0, h4⟩
  have hn : i.toNat < s.params.length := by rw [hl]; omega
  simp only [Effect.getParameter, Effect.setParameter, if_pos hc]
  exact getD_set_self _ _ _ _ hn

theorem Inst.inst_set_get (s : Inst.State) (i : ℤ) (v : ℚ)
    (hl : s.params.length = 8) (h0 : 0 ≤ i) (h8 : i < 8) :
    Inst.getParameter (Inst.setParameter s i v) i
      = clamp v (Inst.paramMin i.toNat) (Inst.paramMax i.toNat) := by
  have hc : 0 ≤ i ∧ i < Inst.numParameters := ⟨h0, h8⟩
  have hn : i.toNat < s.params.length := by rw [hl]; omega
  simp only [Inst.getParameter, Inst.setParameter, if_pos hc]
  exact getD_set_self _ _ _ _ hn

/-- C1: for every in-range parameter index and every value, `setParameter`
followed by `getParameter` returns the value clamped into that parameter's
declared `[min, max]` range; a value already in range is returned unchanged,
and the value read back after any `setParameter` always lies inside the
declared range.  Stated for the effect (indices 0..3) and the instrument
(indices 0..7) simultaneously. -/
theorem C1_setParameter_getParameter_roundtrip
    (es : Effect.State) (is : Inst.State) (i j : ℤ) (v w : ℚ)
    (hel : es.params.length = 4) (hil : is.params.length = 8)
    (hi0 : 0 ≤ i) (hi4 : i < 4) (hj0 : 0 ≤ j) (hj8 : j < 8) :
    (Effect.getParameter (Effect.setParameter es i v) i
        = clamp v (Effect.paramMin i.toNat) (Effect.paramMax i.toNat))
    ∧ (Effect.paramMin i.toNat ≤ v → v ≤ Effect.paramMax i.toNat →
        Effect.getParameter (Effect.setParameter es i v) i = v)
    ∧ Effect.paramMin i.toNat ≤ Effect.getParameter (Effect.setParameter es i v) i
    ∧ Effect.getParameter (Effect.setParameter es i v) i ≤ Effect.paramMax i.toNat
    ∧ (Inst.getParameter (Inst.setParameter is j w) j
        = clamp w (Inst.paramMin j.toNat) (Inst.paramMax j.toNat))
    ∧ (Inst.paramMin j.toNat ≤ w → w ≤ Inst.paramMax j.toNat →
        Inst.getParameter (Inst.setParameter is j w) j = w)
    ∧ Inst.paramMin j.toNat ≤ Inst.getParameter (Inst.setParameter is j w) j
    ∧ Inst.getParameter (Inst.setParameter is j w) j ≤ Inst.paramMax j.toNat := by
  have he := Effect.eff_set_get es i v hel hi0 hi4
  have hi := Inst.inst_set_get is j w hil hj0 hj8
  refine ⟨he, fun h1 h2 => ?_, ?_, ?_, hi, fun h1 h2 => ?_, ?_, ?_⟩
  · rw [he, clamp_eq_self v _ _ h1 h2]
  · rw [he]; exact clamp_ge_left _ _ _ (Effect.eff_paramMin_le_paramMax _)
  · rw [he]; exact clamp_le_right _ _ _ (Effect.eff_paramMin_le_paramMax _)
  · rw [hi, clamp_eq_self w _ _ h1 h2]
  · rw [hi]; exact clamp_ge_left _ _ _ (Inst.inst_paramMin_le_paramMax _)
  · rw [hi]; exact clamp_le_right _ _ _ (Inst.inst_paramMin_le_paramMax _)

/-- Witness for C1 at concrete inputs (effect index 0 with value 5,
instrument index 7 with value (1/2)). -/
theorem C1_setParameter_getParameter_roundtrip_w :
    Effect.getParameter (Effect.setParameter Effect.state0 0 5) 0
      = clamp 5 (Effect.paramMin (0 : ℤ).toNat) (Effect.paramMax (0 : ℤ).toNat) :=
  (C1_setParameter_getParameter_roundtrip Effect.state0 Inst.state0 0 7 5 (1/2)
    rfl rfl (by decide) (by decide) (by decide) (by decide)).1

/-- C6: an out-of-range parameter index (negative, or at least the parameter
count) makes `getParameter` return 0 and makes `setParameter` leave the whole
state unchanged, for both the effect and the instrument. -/
theorem C6_out_of_range_parameter_index
    (es : Effect.State) (is : Inst.State) (i j : ℤ) (v w : ℚ)
    (hi : i < 0 ∨ 4 ≤ i) (hj : j < 0 ∨ 8 ≤ j) :
    Effect.getParameter es i = 0 ∧ Effect.setParameter es i v = es
    ∧ Inst.getParameter is j = 0 ∧ Inst.setParameter is j w = is := by
  have hni : ¬(0 ≤ i ∧ i < Effect.numParameters) := by
    simp only [Effect.numParameters]; omega
  have hnj : ¬(0 ≤ j ∧ j < Inst.numParameters) := by
    simp only [Inst.numParameters]; omega
  exact ⟨by simp [Effect.getParameter, hni], by simp [Effect.setParameter, hni],
         by simp [Inst.getParameter, hnj], by simp [Inst.setParameter, hnj]⟩

/-- Witness for C6 at concrete out-of-range indices 7 and -3. -/
theorem C6_out_of_range_parameter_index_w :
    Effect.getParameter Effect.state0 7 = 0 :=
  (C6_out_of_range_parameter_index Effect.state0 Inst.state0 7 (-3) 1 1
    (Or.inr (by decide)) (Or.inl (by decide))).1

-- ===========================================================================
-- C8: the effect's signal path
-- ===========================================================================

namespace Effect

theorem processFrame_params (s : State) (x : ℚ × ℚ) :
    (processFrame s x).1.params = s.params := rfl

theorem processFrame_sampleRate (s : State) (x : ℚ × ℚ) :
    (processFrame s x).1.sampleRate = s.sampleRate := rfl

theorem processFrame_filterState_length (s : State) (x : ℚ × ℚ) :
    (processFrame s x).1.filterState.length = s.filterState.length := by
  simp [processFrame]

/-- With the mix parameter at 0 the filtered signal is fully discarded:
every output sample is the input sample times the gain parameter, exactly. -/
theorem process_mix0 (s : State) (g co res : ℚ) (input : List (ℚ × ℚ))
    (hp : s.params = [g, 0, co, res]) :
    (process s input).2 = input.map fun p => (p.1 * g, p.2 * g) := by
  induction input generalizing s with
  | nil => rfl
  | cons x rest ih =>
    have hmix : s.params.getD 1 0 = 0 := by rw [hp]; rfl
    have hg : s.params.getD 0 0 = g := by rw [hp]; rfl
    simp only [process, List.map_cons, List.cons.injEq]
    constructor
    · simp only [processFrame, hmix, hg, lerp, Prod.mk.injEq]
      constructor <;> ring
    · exact ih (processFrame s x).1 (by rw [processFrame_params, hp])


theorem dcRun_zero (s : State) (c : ℚ) : dcRun s c 0 = (processFrame s (c, c)).2 := by
  simp [dcRun, process]

theorem dcRun_succ (s : State) (c : ℚ) (n : ℕ) :
    dcRun s c (n+1) = dcRun (processFrame s (c, c)).1 c n := by
  simp only [dcRun, List.replicate_succ, process, List.getD_cons_succ]

/-- Closed form of the constant-input run at mix 1: the output geometrically
approaches `c * gain` with ratio `1 - alpha` per sample. -/
theorem dcRun_closed (s : State) (g co res c : ℚ) (n : ℕ)
    (hp : s.params = [g, 1, co, res]) (hfs : s.filterState.length = 2) :
    dcRun s c n =
      (g * (c - (c - s.filterState.getD 0 0) * (1 - alphaOf s.sampleRate co)^(n+1)),
       g * (c - (c - s.filterState.getD 1 0) * (1 - alphaOf s.sampleRate co)^(n+1))) := by
  induction n generalizing s with
  | zero =>
    rw [dcRun_zero]
    have hmix : s.params.getD 1 0 = 1 := by rw [hp]; rfl
    have hg : s.params.getD 0 0 = g := by rw [hp]; rfl
    have hco : s.params.getD 2 0 = co := by rw [hp]; rfl
    simp only [processFrame, hmix, hg, hco, lowpass, lerp, Prod.mk.injEq]
    constructor <;> ring
  | succ m ih =>
    rw [dcRun_succ]
    have hco : s.params.getD 2 0 = co := by rw [hp]; rfl
    have h01 : (0 : ℕ) ≠ 1 := by decide
    have hlen0 : (0 : ℕ) < s.filterState.length := by omega
    have hlen1 : (1 : ℕ) < (s.filterState.set 0
        (lowpass s.sampleRate c (s.filterState.getD 0 0) co)).length := by
      rw [List.length_set]; omega
    have hf0 : (processFrame s (c, c)).1.filterState.getD 0 0
        = lowpass s.sampleRate c (s.filterState.getD 0 0) co := by
      simp only [processFrame, hco]
      rw [getD_set_ne _ _ _ _ _ (by decide), getD_set_self _ _ _ _ hlen0]
    have hf1 : (processFrame s (c, c)).1.filterState.getD 1 0
        = lowpass s.sampleRate c (s.filterState.getD 1 0) co := by
      simp only [processFrame, hco]
      rw [getD_set_self _ _ _ _ hlen1]
    rw [ih (processFrame s (c, c)).1 (by rw [processFrame_params, hp])
      (by rw [processFrame_filterState_length, hfs])]
    rw [processFrame_sampleRate, hf0, hf1]
    simp only [lowpass, lerp, Prod.mk.injEq]
    constructor <;> ring

/-- The lowpass coefficient lies strictly between 0 and 1 whenever the
sample rate and the cutoff are positive. -/
theorem alphaOf_mem (sr co : ℚ) (hsr : 0 < sr) (hco : 0 < co) :
    0 < alphaOf sr co ∧ alphaOf sr co < 1 := by
  have hpi : (0 : ℚ) < piF := by norm_num [piF]
  have hrc : 0 < 1 / (2 * piF * co) := by positivity
  have hdt : 0 < 1 / sr := by positivity
  simp only [alphaOf]
  constructor
  · exact div_pos hdt (by linarith)
  · rw [div_lt_one (by linarith)]; linarith

/-- Real-valued limit of the geometric closed form. -/
theorem dc_tendsto_aux (g a c fs : ℚ) (ha0 : 0 < a) (ha1 : a < 1) :
    Filter.Tendsto (fun n : ℕ => ((g * (c - (c - fs) * (1 - a)^(n+1)) : ℚ) : ℝ))
      Filter.atTop (nhds ((c * g : ℚ) : ℝ)) := by
  have hA : |((1 - a : ℚ) : ℝ)| < 1 := by
    rw [abs_lt]
    have h0 : (0 : ℝ) < ((a : ℚ) : ℝ) := by exact_mod_cast ha0
    have h1 : ((a : ℚ) : ℝ) < 1 := by exact_mod_cast ha1
    push_cast
    constructor <;> linarith
  have hpow : Filter.Tendsto (fun n : ℕ => (((1 - a : ℚ) : ℝ))^(n+1))
      Filter.atTop (nhds 0) :=
    (tendsto_pow_atTop_nhds_zero_of_abs_lt_one hA).comp (Filter.tendsto_add_atTop_nat 1)
  have hmain : Filter.Tendsto
      (fun n : ℕ => ((g : ℝ)) * (((c : ℝ)) - (((c : ℝ)) - ((fs : ℝ))) * (((1 - a : ℚ) : ℝ))^(n+1)))
      Filter.atTop (nhds (((g : ℝ)) * (((c : ℝ)) - (((c : ℝ)) - ((fs : ℝ))) * 0))) :=
    (tendsto_const_nhds.sub (tendsto_const_nhds.mul hpow)).const_mul _
  have hlim : ((c * g : ℚ) : ℝ) = ((g : ℝ)) * (((c : ℝ)) - (((c : ℝ)) - ((fs : ℝ))) * 0) := by
    push_cast; ring
  rw [hlim]
  refine hmain.congr fun n => ?_
  push_cast; ring

end Effect

/-- C8: the effect's `process` applies, per sample and channel, a one-pole
lowpass with `alpha = dt/(rc+dt)`, `rc = 1/(2*pi*cutoff)`, `dt = 1/sampleRate`,
cross-fades dry and filtered by the mix parameter, and multiplies by gain;
with mix 0 every output sample equals the input sample times gain exactly,
and with mix 1 and constant input `c` the output sequence on each channel
converges to `c * gain`. -/
theorem C8_lowpass_mix_gain
    (s : Effect.State) (g mix co res c : ℚ) (input : List (ℚ × ℚ))
    (hp : s.params = [g, mix, co, res]) (hfs : s.filterState.length = 2)
    (hsr : 0 < s.sampleRate) (hco : 0 < co) :
    (∀ sr x st cutoff, Effect.lowpass sr x st cutoff
        = st + (x - st) * ((1 / sr) / (1 / (2 * Effect.piF * cutoff) + 1 / sr)))
    ∧ (mix = 0 → (Effect.process s input).2 = input.map fun p => (p.1 * g, p.2 * g))
    ∧ (mix = 1 →
        Filter.Tendsto (fun n => (((Effect.dcRun s c n).1 : ℚ) : ℝ))
          Filter.atTop (nhds ((c * g : ℚ) : ℝ))
        ∧ Filter.Tendsto (fun n => (((Effect.dcRun s c n).2 : ℚ) : ℝ))
          Filter.atTop (nhds ((c * g : ℚ) : ℝ))) := by
  refine ⟨fun sr x st cutoff => rfl, fun hm => ?_, fun hm => ?_⟩
  · exact Effect.process_mix0 s g co res input (by rw [hp, hm])
  · subst hm
    obtain ⟨ha0, ha1⟩ := Effect.alphaOf_mem s.sampleRate co hsr hco
    constructor
    · refine (Effect.dc_tendsto_aux g (Effect.alphaOf s.sampleRate co) c
        (s.filterState.getD 0 0) ha0 ha1).congr fun n => ?_
      rw [Effect.dcRun_closed s g co res c n hp hfs]
    · refine (Effect.dc_tendsto_aux g (Effect.alphaOf s.sampleRate co) c
        (s.filterState.getD 1 0) ha0 ha1).congr fun n => ?_
      rw [Effect.dcRun_closed s g co res c n hp hfs]

/-- Witness for C8: a concrete state with gain 2 and mix 0 passes a concrete
input through scaled by the gain. -/
theorem C8_lowpass_mix_gain_w :
    (Effect.process
      { sampleRate := 44100, bufferSize := 128, params := [2, 0, 1000, 0],
        filterState := [0, 0] } [((3 : ℚ), (4 : ℚ))]).2
      = [((3 : ℚ), (4 : ℚ))].map fun p => (p.1 * 2, p.2 * 2) :=
  (C8_lowpass_mix_gain
    { sampleRate := 44100, bufferSize := 128, params := [2, 0, 1000, 0],
      filterState := [0, 0] } 2 0 1000 0 5 [((3 : ℚ), (4 : ℚ))]
    rfl rfl (by norm_num) (by norm_num)).2.1 rfl

-- ===========================================================================
-- C10: processBlock touches only the first two planar channels
-- ===========================================================================

namespace Effect

theorem chanLoop_untouched (sr g mix co : ℚ) (inp : ℕ → ℚ) :
    ∀ (k ofs : ℕ) (st : ℚ) (out : ℕ → ℚ) (idx : ℕ),
      idx < ofs ∨ ofs + k ≤ idx →
      (chanLoop sr g mix co inp ofs k st out).2 idx = out idx := by
  intro k
  induction k with
  | zero => intro ofs st out idx _; rfl
  | succ m ih =>
    intro ofs st out idx h
    have hne : idx ≠ ofs := by omega
    have h2 : idx < ofs + 1 ∨ (ofs + 1) + m ≤ idx := by omega
    simp only [chanLoop]
    rw [ih (ofs+1) _ _ idx h2, Function.update_noteq hne]

theorem pbLoop_untouched (sr g mix co : ℚ) (inp : ℕ → ℚ) (ns : ℕ) :
    ∀ (l : List ℕ), (∀ ch ∈ l, ch < 2) →
      ∀ (fs : List ℚ) (out : ℕ → ℚ) (idx : ℕ), 2 * ns ≤ idx →
        (pbLoop sr g mix co inp ns l fs out).2 idx = out idx := by
  intro l
  induction l with
  | nil => intro _ fs out idx _; rfl
  | cons ch rest ih =>
    intro hl fs out idx hidx
    have hch : ch < 2 := hl ch (List.mem_cons_self ch rest)
    simp only [pbLoop]
    rw [ih (fun c hc => hl c (List.mem_cons_of_mem ch hc)) _ _ idx hidx]
    exact chanLoop_untouched sr g mix co inp ns (ch * ns) _ out idx (by
      right
      have : ch * ns + ns ≤ 2 * ns := by nlinarith
      omega)

theorem chanLoop_congr (sr g mix co : ℚ) (inp inp2 : ℕ → ℚ) :
    ∀ (k ofs : ℕ) (st : ℚ) (out : ℕ → ℚ),
      (∀ idx, ofs ≤ idx → idx < ofs + k → inp idx = inp2 idx) →
      chanLoop sr g mix co inp ofs k st out
        = chanLoop sr g mix co inp2 ofs k st out := by
  intro k
  induction k with
  | zero => intro ofs st out _; rfl
  | succ m ih =>
    intro ofs st out h
    have h0 : inp ofs = inp2 ofs := h ofs (le_refl ofs) (by omega)
    simp only [chanLoop, h0]
    exact ih (ofs+1) _ _ (fun idx h1 h2 => h idx (by omega) (by omega))

theorem pbLoop_congr (sr g mix co : ℚ) (inp inp2 : ℕ → ℚ) (ns : ℕ) :
    ∀ (l : List ℕ), (∀ ch ∈ l, ch < 2) →
      ∀ (fs : List ℚ) (out : ℕ → ℚ),
        (∀ idx, idx < 2 * ns → inp idx = inp2 idx) →
        pbLoop sr g mix co inp ns l fs out = pbLoop sr g mix co inp2 ns l fs out := by
  intro l
  induction l with
  | nil => intro _ fs out _; rfl
  | cons ch rest ih =>
    intro hl fs out h
    have hch : ch < 2 := hl ch (List.mem_cons_self ch rest)
    have hcc : chanLoop sr g mix co inp (ch * ns) ns (fs.getD ch 0) out
        = chanLoop sr g mix co inp2 (ch * ns) ns (fs.getD ch 0) out := by
      refine chanLoop_congr sr g mix co inp inp2 ns (ch * ns) _ _ ?_
      intro idx h1 h2
      refine h idx ?_
      have : ch * ns + ns ≤ 2 * ns := by nlinarith
      omega
    simp only [pbLoop, hcc]
    exact ih (fun c hc => hl c (List.mem_cons_of_mem ch hc)) _ _ h

end Effect

/-- C10: `processBlock` reads and writes only the first `min numChannels 2`
planar channels: for `numChannels >= 2` every output index at or beyond
`2 * numSamples` keeps its previous value, the result does not depend on the
input beyond index `2 * numSamples`, and the whole result (output and filter
state) coincides with the two-channel run, so only filter states 0 and 1 are
ever used. -/
theorem C10_processBlock_channel_bound
    (s : Effect.State) (inp inp2 out : ℕ → ℚ) (ns nc : ℕ) (hnc : 2 ≤ nc) :
    (∀ idx, 2 * ns ≤ idx → (Effect.processBlock s inp out ns nc).2 idx = out idx)
    ∧ ((∀ idx, idx < 2 * ns → inp idx = inp2 idx) →
        Effect.processBlock s inp out ns nc = Effect.processBlock s inp2 out ns nc)
    ∧ Effect.processBlock s inp out ns nc = Effect.processBlock s inp out ns 2 := by
  refine ⟨?_, ?_, ?_⟩
  · intro idx hidx
    exact Effect.pbLoop_untouched _ _ _ _ _ _ _
      (fun ch hch => by
        have := List.mem_range.1 hch
        omega) _ _ idx hidx
  · intro h
    simp only [Effect.processBlock]
    rw [Effect.pbLoop_congr _ _ _ _ inp inp2 ns (List.range (min nc 2))
      (fun ch hch => by
        have := List.mem_range.1 hch
        omega) s.filterState out h]
  · simp only [Effect.processBlock, min_eq_right hnc, min_self]

/-- Witness for C10: with 3 channels and one sample per channel, output
index 5 (in the third channel's region) is untouched. -/
theorem C10_processBlock_channel_bound_w :
    (Effect.processBlock Effect.state0 (fun _ => 1) (fun _ => 0) 1 3).2 5 = 0 :=
  (C10_processBlock_channel_bound Effect.state0 (fun _ => 1) (fun _ => 1) (fun _ => 0) 1 3
    (by norm_num)).1 5 (by norm_num)


-- ===========================================================================
-- C2: the envelope state machine
-- ===========================================================================

/-- C2: one `updateEnvelope` step follows the ADSR state machine.  In Attack
(stage 1) the level rises by `1/(attack*sampleRate)` and is clamped to 1 with
a transition to Decay on reaching 1; in Decay (stage 2) it falls by
`(1-sustain)/(decay*sampleRate)` and is clamped to the sustain level with a
transition to Sustain; Sustain (stage 3) leaves the voice unchanged; in
Release (stage 4) it falls by `envelope/(release*sampleRate)` and on
reaching 0.001 the level becomes 0, the stage Idle (0), and the voice is
deactivated.  Parameters 1..4 are attack, decay, sustain, release. -/
theorem C2_envelope_state_machine (sr : ℚ) (ps : List ℚ) (v : Inst.Voice) :
    (v.envStage = 1 → Inst.updateEnvelope sr ps v =
      { v with envelope := min (v.envelope + 1 / (ps.getD 1 0 * sr)) 1,
               envStage := if v.envelope + 1 / (ps.getD 1 0 * sr) ≥ 1 then 2 else 1 })
    ∧ (v.envStage = 2 → Inst.updateEnvelope sr ps v =
      { v with envelope := max (v.envelope - (1 - ps.getD 3 0) / (ps.getD 2 0 * sr)) (ps.getD 3 0),
               envStage :=
                 if v.envelope - (1 - ps.getD 3 0) / (ps.getD 2 0 * sr) ≤ ps.getD 3 0
                 then 3 else 2 })
    ∧ (v.envStage = 3 → Inst.updateEnvelope sr ps v = v)
    ∧ (v.envStage = 4 → Inst.updateEnvelope sr ps v =
      if v.envelope - v.envelope / (ps.getD 4 0 * sr) ≤ (1/1000) then
        { v with envelope := 0, envStage := 0, active := false }
      else { v with envelope := v.envelope - v.envelope / (ps.getD 4 0 * sr) }) := by
  obtain ⟨ac, nt, vel, ph, pinc, en, st, f0, f1, lf⟩ := v
  refine ⟨fun h => ?_, fun h => ?_, fun h => ?_, fun h => ?_⟩
  · simp only at h
    subst h
    simp only [Inst.updateEnvelope]
    by_cases he : en + 1 / (ps.getD 1 0 * sr) ≥ 1
    · simp only [if_pos he, min_eq_right he]
    · simp only [if_neg he, min_eq_left (le_of_not_le he)]
  · simp only at h
    subst h
    simp only [Inst.updateEnvelope]
    by_cases he : en - (1 - ps.getD 3 0) / (ps.getD 2 0 * sr) ≤ ps.getD 3 0
    · simp only [if_pos he, max_eq_right he]
    · simp only [if_neg he, max_eq_left (le_of_not_le he)]
  · simp only at h
    subst h
    simp only [Inst.updateEnvelope]
  · simp only at h
    subst h
    simp only [Inst.updateEnvelope]

/-- Witness for C2: a voice in Sustain is unchanged by `updateEnvelope`. -/
theorem C2_envelope_state_machine_w :
    Inst.updateEnvelope 44100 Inst.state0.params { Inst.voice0 with envStage := 3 }
      = { Inst.voice0 with envStage := 3 } :=
  (C2_envelope_state_machine 44100 Inst.state0.params
    { Inst.voice0 with envStage := 3 }).2.2.1 rfl

-- ===========================================================================
-- C7: note-off semantics and velocity-0 note-on
-- ===========================================================================

/-- C7: `noteOn` with velocity 0 is exactly `noteOff` (no voice is touched,
allocated or stolen); `noteOff` moves every active voice that matches the
note and is not already releasing into the Release stage (4), leaves every
other voice unchanged, and changes nothing else in the state. -/
theorem C7_noteOff_all_matching (T : Transc) (s : Inst.State) (note ch : ℤ)
    (i : ℕ) (h : i < s.voices.length) :
    (Inst.noteOn T s note 0 ch = Inst.noteOff s note ch)
    ∧ (Inst.noteOff s note ch).voices.length = s.voices.length
    ∧ ((s.voices.get ⟨i, h⟩).active = true → (s.voices.get ⟨i, h⟩).note = note →
        (s.voices.get ⟨i, h⟩).envStage ≠ 4 →
        (Inst.noteOff s note ch).voices.getD i Inst.voice0
          = { s.voices.get ⟨i, h⟩ with envStage := 4 })
    ∧ (¬((s.voices.get ⟨i, h⟩).active = true ∧ (s.voices.get ⟨i, h⟩).note = note
          ∧ (s.voices.get ⟨i, h⟩).envStage ≠ 4) →
        (Inst.noteOff s note ch).voices.getD i Inst.voice0 = s.voices.get ⟨i, h⟩)
    ∧ (Inst.noteOff s note ch).sampleRate = s.sampleRate
    ∧ (Inst.noteOff s note ch).params = s.params
    ∧ (Inst.noteOff s note ch).masterVolume = s.masterVolume
    ∧ (Inst.noteOff s note ch).pitchBendValue = s.pitchBendValue
    ∧ (Inst.noteOff s note ch).modWheel = s.modWheel
    ∧ (Inst.noteOff s note ch).noiseState = s.noiseState := by
  have hlen : (Inst.noteOff s note ch).voices.length = s.voices.length := by
    simp [Inst.noteOff]
  have hget : (Inst.noteOff s note ch).voices.getD i Inst.voice0
      = (fun v => if v.active = true ∧ v.note = note ∧ v.envStage ≠ 4 then
          { v with envStage := 4 } else v) (s.voices.get ⟨i, h⟩) := by
    have h2 : i < (Inst.noteOff s note ch).voices.length := by rw [hlen]; exact h
    rw [List.getD_eq_getElem _ _ h2]
    simp [Inst.noteOff]
  refine ⟨by simp [Inst.noteOn], hlen, fun h1 h2 h3 => ?_, fun hn => ?_,
    rfl, rfl, rfl, rfl, rfl, rfl⟩
  · rw [hget]; simp only [if_pos (And.intro h1 (And.intro h2 h3))]
  · rw [hget]; simp only [if_neg hn]

/-- Witness for C7: on the all-inactive initial pool, a velocity-0 note-on
coincides with a note-off. -/
theorem C7_noteOff_all_matching_w :
    Inst.noteOn T0 Inst.state0 60 0 0 = Inst.noteOff Inst.state0 60 0 :=
  (C7_noteOff_all_matching T0 Inst.state0 60 0 0
    (by simp [Inst.state0, Inst.maxVoices])).1

-- ===========================================================================
-- C9: MIDI boundary values are NOT clamped (corrected claim)
-- ===========================================================================

/-- Counterexample to C9 as stated: `noteOn` stores `velocity / 127`
without clamping, so the MIDI velocity 254 yields a voice velocity of 2,
outside `[0, 1]`; likewise `controlChange` cc 7 with value 254 stores a
master volume of 2. -/
theorem C9_counterexample_no_clamp :
    ¬ (((Inst.noteOn T0 Inst.state0 60 254 0).voices.getD 0 Inst.voice0).velocity ≤ 1)
    ∧ ¬ ((Inst.controlChange Inst.state0 7 254 0).masterVolume ≤ 1) := by
  constructor
  · have hch : Inst.chooseVoice Inst.state0.voices = 0 := by
      show Inst.scanVoices Inst.state0.voices 0 0 0 = 0
      simp [Inst.state0, Inst.maxVoices, List.replicate_succ, Inst.scanVoices, Inst.voice0]
    have hlen : 0 < Inst.state0.voices.length := by
      simp [Inst.state0, Inst.maxVoices]
    simp only [Inst.noteOn, if_neg (by norm_num : ¬(254 : ℤ) = 0), hch]
    rw [getD_set_self _ _ _ _ hlen]
    simp only [Inst.startVoice]
    norm_num
  · simp only [Inst.controlChange, if_neg (by norm_num : ¬(7 : ℤ) = 1), if_pos rfl]
    norm_num

/-- C9 as amended: the parameter store clamps, but the MIDI entry points
only normalise by 127 without clamping; therefore the stored voice velocity,
mod wheel and master volume lie in `[0, 1]` exactly when the incoming MIDI
byte lies in 0..127 (for `noteOn`, when it is moreover nonzero, else the
call is a note-off).  Out-of-range MIDI bytes are passed through `/127`
unclamped. -/
theorem C9_midi_normalisation_amended (T : Transc) (s : Inst.State)
    (note vel ch value : ℤ)
    (hv0 : 0 ≤ vel) (hv1 : vel ≤ 127) (hc0 : 0 ≤ value) (hc1 : value ≤ 127) :
    (vel ≠ 0 → ∀ v ∈ (Inst.noteOn T s note vel ch).voices,
        v ∈ s.voices ∨ (0 ≤ v.velocity ∧ v.velocity ≤ 1))
    ∧ (0 ≤ (Inst.controlChange s 1 value ch).modWheel
        ∧ (Inst.controlChange s 1 value ch).modWheel ≤ 1)
    ∧ (0 ≤ (Inst.controlChange s 7 value ch).masterVolume
        ∧ (Inst.controlChange s 7 value ch).masterVolume ≤ 1) := by
  have hv0q : (0 : ℚ) ≤ (vel : ℚ) := by exact_mod_cast hv0
  have hv1q : (vel : ℚ) ≤ 127 := by exact_mod_cast hv1
  have hc0q : (0 : ℚ) ≤ (value : ℚ) := by exact_mod_cast hc0
  have hc1q : (value : ℚ) ≤ 127 := by exact_mod_cast hc1
  refine ⟨fun hne v hv => ?_, ⟨?_, ?_⟩, ⟨?_, ?_⟩⟩
  · simp only [Inst.noteOn, if_neg hne] at hv
    rcases List.mem_or_eq_of_mem_set hv with hmem | heq
    · exact Or.inl hmem
    · refine Or.inr ?_
      rw [heq]
      simp only [Inst.startVoice]
      constructor
      · positivity
      · rw [div_le_one (by norm_num)]; linarith
  · norm_num [Inst.controlChange]
    positivity
  · norm_num [Inst.controlChange]
    rw [div_le_one (by norm_num : (0 : ℚ) < 127)]
    linarith
  · norm_num [Inst.controlChange]
    positivity
  · norm_num [Inst.controlChange]
    rw [div_le_one (by norm_num : (0 : ℚ) < 127)]
    linarith

/-- Witness for the amended C9 at MIDI value 127. -/
theorem C9_midi_normalisation_amended_w :
    0 ≤ (Inst.controlChange Inst.state0 1 127 0).modWheel
    ∧ (Inst.controlChange Inst.state0 1 127 0).modWheel ≤ 1 :=
  (C9_midi_normalisation_amended T0 Inst.state0 60 127 0 127
    (by norm_num) (by norm_num) (by norm_num) (by norm_num)).2.1

-- ===========================================================================
-- C4: the active/Idle invariant
-- ===========================================================================


theorem voiceInv_voice0 : VoiceInv Inst.voice0 := by
  simp [VoiceInv, Inst.voice0]

theorem voiceInv_updateEnvelope (sr : ℚ) (ps : List ℚ) (v : Inst.Voice)
    (h : VoiceInv v) : VoiceInv (Inst.updateEnvelope sr ps v) := by
  obtain ⟨ac, nt, vel, ph, pinc, en, st, f0, f1, lf⟩ := v
  simp only [VoiceInv] at h ⊢
  match st, h with
  | 0, h => exact h
  | 1, h => simp only [Inst.updateEnvelope]; split_ifs <;> simp_all
  | 2, h => simp only [Inst.updateEnvelope]; split_ifs <;> simp_all
  | 3, h => exact h
  | 4, h => simp only [Inst.updateEnvelope]; split_ifs <;> simp_all
  | (m+5), h => exact h

theorem voiceInv_voiceStep (T : Transc) (sr : ℚ) (ps : List ℚ) (bend : ℚ)
    (wf : ℤ) (v : Inst.Voice) (ns : ℕ) (h : VoiceInv v) :
    VoiceInv (Inst.voiceStep T sr ps bend wf v ns).1 := by
  by_cases ha : v.active
  · simp only [Inst.voiceStep, if_pos ha]
    exact voiceInv_updateEnvelope sr ps _ h
  · simp only [Inst.voiceStep, if_neg ha]
    exact h

theorem stateInv_voicesStep (T : Transc) (sr : ℚ) (ps : List ℚ) (bend : ℚ)
    (wf : ℤ) : ∀ (vs : List Inst.Voice) (ns : ℕ), (∀ v ∈ vs, VoiceInv v) →
    ∀ v ∈ (Inst.voicesStep T sr ps bend wf vs ns).1, VoiceInv v := by
  intro vs
  induction vs with
  | nil => intro ns h v hv; simp [Inst.voicesStep] at hv
  | cons x rest ih =>
    intro ns h v hv
    simp only [Inst.voicesStep, List.mem_cons] at hv
    rcases hv with hv | hv
    · rw [hv]
      exact voiceInv_voiceStep T sr ps bend wf x ns (h x (List.mem_cons_self x rest))
    · exact ih _ (fun w hw => h w (List.mem_cons_of_mem x hw)) v hv

theorem stateInv_processSample (T : Transc) (s : Inst.State) (h : StateInv s) :
    StateInv (Inst.processSample T s).1 := by
  intro v hv
  simp only [Inst.processSample] at hv
  exact stateInv_voicesStep T s.sampleRate s.params s.pitchBendValue _
    s.voices s.noiseState h v hv

theorem stateInv_process (T : Transc) :
    ∀ (n : ℕ) (s : Inst.State), StateInv s → StateInv (Inst.process T n s).1 := by
  intro n
  induction n with
  | zero => intro s h; exact h
  | succ m ih =>
    intro s h
    simp only [Inst.process]
    exact ih _ (stateInv_processSample T s h)

theorem stateInv_noteOff (s : Inst.State) (note ch : ℤ) (h : StateInv s) :
    StateInv (Inst.noteOff s note ch) := by
  intro v hv
  simp only [Inst.noteOff, List.mem_map] at hv
  obtain ⟨x, hx, rfl⟩ := hv
  have hxinv := h x hx
  by_cases hc : x.active = true ∧ x.note = note ∧ x.envStage ≠ 4
  · simp only [if_pos hc, VoiceInv] at hxinv ⊢
    simp [hc.1]
  · simp only [if_neg hc]
    exact hxinv

theorem stateInv_reset (s : Inst.State) (h : StateInv s) :
    StateInv (Inst.reset s) := by
  intro v hv
  simp only [Inst.reset, List.mem_map] at hv
  obtain ⟨x, hx, rfl⟩ := hv
  simp [VoiceInv, Inst.killVoice]

theorem stateInv_noteOn (T : Transc) (s : Inst.State) (note vel ch : ℤ)
    (h : StateInv s) : StateInv (Inst.noteOn T s note vel ch) := by
  by_cases hv0 : vel = 0
  · simp only [Inst.noteOn, if_pos hv0]
    exact stateInv_noteOff s note ch h
  · simp only [Inst.noteOn, if_neg hv0]
    intro v hv
    rcases List.mem_or_eq_of_mem_set hv with hmem | heq
    · exact h v hmem
    · rw [heq]
      simp [VoiceInv, Inst.startVoice]

theorem stateInv_controlChange (s : Inst.State) (cc value ch : ℤ)
    (h : StateInv s) : StateInv (Inst.controlChange s cc value ch) := by
  simp only [Inst.controlChange]
  split_ifs
  · exact fun v hv => h v hv
  · exact fun v hv => h v hv
  · exact fun v hv => h v hv
  · exact fun v hv => h v hv
  · exact stateInv_reset s h
  · exact h

/-- C4: the invariant "a voice is inactive iff its envelope stage is Idle"
holds after `init` and is preserved by `process`, `noteOn`, `noteOff`,
`controlChange` (including cc 123), `pitchBend`, and `reset`. -/
theorem C4_active_iff_not_idle (T : Transc) (sr : ℚ) (bs note vel ch cc value pbv : ℤ)
    (s : Inst.State) (n : ℕ) :
    StateInv (Inst.init sr bs s)
    ∧ (StateInv s → StateInv (Inst.process T n s).1)
    ∧ (StateInv s → StateInv (Inst.noteOn T s note vel ch))
    ∧ (StateInv s → StateInv (Inst.noteOff s note ch))
    ∧ (StateInv s → StateInv (Inst.controlChange s cc value ch))
    ∧ (StateInv s → StateInv (Inst.pitchBend s pbv ch))
    ∧ (StateInv s → StateInv (Inst.reset s)) := by
  refine ⟨?_, stateInv_process T n s, stateInv_noteOn T s note vel ch,
    stateInv_noteOff s note ch, stateInv_controlChange s cc value ch,
    fun h v hv => h v hv, stateInv_reset s⟩
  intro v hv
  simp only [Inst.init] at hv
  rw [List.eq_of_mem_replicate hv]
  exact voiceInv_voice0

/-- Witness for C4: the invariant holds on the freshly initialised state. -/
theorem C4_active_iff_not_idle_w :
    StateInv (Inst.init 44100 128 Inst.state0) :=
  (C4_active_iff_not_idle T0 44100 128 60 100 0 1 64 0 Inst.state0 8).1

-- ===========================================================================
-- C3: voice allocation and stealing
-- ===========================================================================

/-- Helper: an in-range `getD` is a member of the list. -/
theorem getD_mem {α : Type} (l : List α) (n : ℕ) (d : α) (h : n < l.length) :
    l.getD n d ∈ l := by
  rw [List.getD_eq_getElem l d h]
  exact List.getElem_mem h

/-- The scan stops at the first inactive voice and returns its absolute
index. -/
theorem scanVoices_first_inactive :
    ∀ (vs : List Inst.Voice) (i : ℕ) (t : ℚ) (j m : ℕ),
      m < vs.length → (vs.getD m Inst.voice0).active = false →
      (∀ k, k < m → (vs.getD k Inst.voice0).active = true) →
      Inst.scanVoices vs i t j = i + m := by
  intro vs
  induction vs with
  | nil => intro i t j m hm; simp at hm
  | cons v rest ih =>
    intro i t j m hm hmin hbefore
    cases m with
    | zero =>
      simp only [List.getD_cons_zero] at hmin
      simp [Inst.scanVoices, hmin]
    | succ m1 =>
      have hv : v.active = true := by
        have := hbefore 0 (Nat.succ_pos m1)
        simpa using this
      have hv2 : ¬ v.active = false := by simp [hv]
      simp only [Inst.scanVoices, if_neg hv2]
      have hm1 : m1 < rest.length := by simpa using hm
      have hmin1 : (rest.getD m1 Inst.voice0).active = false := by
        simpa using hmin
      have hbefore1 : ∀ k, k < m1 → (rest.getD k Inst.voice0).active = true := by
        intro k hk
        have := hbefore (k+1) (by omega)
        simpa using this
      split_ifs with hcond
      · rw [ih (i+1) v.envelope i m1 hm1 hmin1 hbefore1]; omega
      · rw [ih (i+1) t j m1 hm1 hmin1 hbefore1]; omega

/-- The scan's result stays below `i + length` as long as the running
candidate does. -/
theorem scanVoices_lt :
    ∀ (vs : List Inst.Voice) (i : ℕ) (t : ℚ) (j : ℕ), j < i →
      Inst.scanVoices vs i t j < i + vs.length := by
  intro vs
  induction vs with
  | nil => intro i t j h; simpa [Inst.scanVoices] using h
  | cons v rest ih =>
    intro i t j h
    simp only [Inst.scanVoices]
    split_ifs with h1 h2
    · simp
    · have := ih (i+1) v.envelope i (by omega)
      simp only [List.length_cons]
      omega
    · have := ih (i+1) t j (by omega)
      simp only [List.length_cons]
      omega

/-- The chosen slot index is always within the pool. -/
theorem chooseVoice_lt_length (vs : List Inst.Voice) (hne : vs ≠ []) :
    Inst.chooseVoice vs < vs.length := by
  obtain ⟨v, rest, rfl⟩ := List.exists_cons_of_ne_nil hne
  by_cases ha : v.active = false
  · simp [Inst.chooseVoice, Inst.scanVoices, ha]
  · have h1 : Inst.chooseVoice (v :: rest) = Inst.scanVoices rest 1 v.envelope 0 := by
      simp [Inst.chooseVoice, Inst.scanVoices, ha]
    rw [h1]
    have := scanVoices_lt rest 1 v.envelope 0 (by omega)
    simp only [List.length_cons]
    omega

/-- On an all-active tail the scan either keeps the incoming candidate (and
every envelope in the tail is at least the candidate value) or returns the
leftmost strict minimum of the tail, which then also beats the candidate. -/
theorem scanVoices_all_active :
    ∀ (vs : List Inst.Voice), (∀ v ∈ vs, v.active = true) →
    ∀ (i : ℕ) (t : ℚ) (j : ℕ),
      (Inst.scanVoices vs (i+1) t j = j ∧ ∀ v ∈ vs, t ≤ v.envelope)
      ∨ (∃ m, m < vs.length ∧ Inst.scanVoices vs (i+1) t j = i+1+m
          ∧ (vs.getD m Inst.voice0).envelope < t
          ∧ (∀ k, k < vs.length →
              (vs.getD m Inst.voice0).envelope ≤ (vs.getD k Inst.voice0).envelope)
          ∧ (∀ k, k < m →
              (vs.getD m Inst.voice0).envelope < (vs.getD k Inst.voice0).envelope)) := by
  intro vs
  induction vs with
  | nil =>
    intro _ i t j
    left
    exact ⟨rfl, by simp⟩
  | cons v rest ih =>
    intro hall i t j
    have hva : v.active = true := hall v (List.mem_cons_self v rest)
    have hva2 : ¬ v.active = false := by simp [hva]
    have hrest : ∀ w ∈ rest, w.active = true :=
      fun w hw => hall w (List.mem_cons_of_mem v hw)
    have hi1 : ¬ (i + 1 = 0) := by omega
    simp only [Inst.scanVoices, if_neg hva2]
    by_cases hlt : v.envelope < t
    · rw [if_pos (Or.inl hlt)]
      rcases ih hrest (i+1) v.envelope (i+1) with ⟨heq, hall2⟩ | ⟨m, hm, heq, hlt2, hle2, hstr2⟩
      · right
        refine ⟨0, by simp, by simpa using heq, by simpa using hlt, ?_, by omega⟩
        intro k hk
        cases k with
        | zero => simp
        | succ k1 =>
          simp only [List.getD_cons_zero, List.getD_cons_succ]
          exact hall2 _ (getD_mem rest k1 Inst.voice0 (by simpa using hk))
      · right
        refine ⟨m+1, by simpa using Nat.succ_lt_succ hm, by omega, ?_, ?_, ?_⟩
        · simp only [List.getD_cons_succ]
          exact lt_trans hlt2 hlt
        · intro k hk
          cases k with
          | zero =>
            simp only [List.getD_cons_succ, List.getD_cons_zero]
            exact le_of_lt hlt2
          | succ k1 =>
            simp only [List.getD_cons_succ]
            exact hle2 k1 (by simpa using hk)
        · intro k hk
          cases k with
          | zero =>
            simp only [List.getD_cons_succ, List.getD_cons_zero]
            exact hlt2
          | succ k1 =>
            simp only [List.getD_cons_succ]
            exact hstr2 k1 (by omega)
    · rw [if_neg (by
        intro hc
        rcases hc with hc | hc
        · exact hlt hc
        · exact hi1 hc)]
      rcases ih hrest (i+1) t j with ⟨heq, hall2⟩ | ⟨m, hm, heq, hlt2, hle2, hstr2⟩
      · left
        refine ⟨by simpa using heq, ?_⟩
        intro w hw
        rcases List.mem_cons.1 hw with rfl | hw2
        · exact le_of_not_lt hlt
        · exact hall2 w hw2
      · right
        refine ⟨m+1, by simpa using Nat.succ_lt_succ hm, by omega, ?_, ?_, ?_⟩
        · simp only [List.getD_cons_succ]
          exact hlt2
        · intro k hk
          cases k with
          | zero =>
            simp only [List.getD_cons_succ, List.getD_cons_zero]
            exact le_trans (le_of_lt hlt2) (le_of_not_lt hlt)
          | succ k1 =>
            simp only [List.getD_cons_succ]
            exact hle2 k1 (by simpa using hk)
        · intro k hk
          cases k with
          | zero =>
            simp only [List.getD_cons_succ, List.getD_cons_zero]
            exact lt_of_lt_of_le hlt2 (le_of_not_lt hlt)
          | succ k1 =>
            simp only [List.getD_cons_succ]
            exact hstr2 k1 (by omega)

/-- On a fully active pool the chosen slot carries the leftmost minimal
envelope: no envelope is smaller, and every earlier slot is strictly
larger. -/
theorem chooseVoice_steals_quietest (vs : List Inst.Voice) (hne : vs ≠ [])
    (hall : ∀ v ∈ vs, v.active = true) :
    Inst.chooseVoice vs < vs.length
    ∧ (∀ k, k < vs.length →
        (vs.getD (Inst.chooseVoice vs) Inst.voice0).envelope
          ≤ (vs.getD k Inst.voice0).envelope)
    ∧ (∀ k, k < Inst.chooseVoice vs →
        (vs.getD (Inst.chooseVoice vs) Inst.voice0).envelope
          < (vs.getD k Inst.voice0).envelope) := by
  obtain ⟨v, rest, rfl⟩ := List.exists_cons_of_ne_nil hne
  have hva : v.active = true := hall v (List.mem_cons_self v rest)
  have hva2 : ¬ v.active = false := by simp [hva]
  have hrest : ∀ w ∈ rest, w.active = true :=
    fun w hw => hall w (List.mem_cons_of_mem v hw)
  have hch : Inst.chooseVoice (v :: rest)
      = Inst.scanVoices rest (0+1) v.envelope 0 := by
    simp [Inst.chooseVoice, Inst.scanVoices, hva2]
  rcases scanVoices_all_active rest hrest 0 v.envelope 0 with
    ⟨heq, hall2⟩ | ⟨m, hm, heq, hlt2, hle2, hstr2⟩
  · have hch0 : Inst.chooseVoice (v :: rest) = 0 := by rw [hch]; exact heq
    rw [hch0]
    refine ⟨by simp, ?_, by omega⟩
    intro k hk
    cases k with
    | zero => simp
    | succ k1 =>
      simp only [List.getD_cons_zero, List.getD_cons_succ]
      exact hall2 _ (getD_mem rest k1 Inst.voice0 (by simpa using hk))
  · have hchm : Inst.chooseVoice (v :: rest) = m + 1 := by
      rw [hch]
      exact heq.trans (by omega)
    rw [hchm]
    refine ⟨by simpa using Nat.succ_lt_succ hm, ?_, ?_⟩
    · intro k hk
      cases k with
      | zero =>
        simp only [List.getD_cons_succ, List.getD_cons_zero]
        exact le_of_lt hlt2
      | succ k1 =>
        simp only [List.getD_cons_succ]
        exact hle2 k1 (by simpa using hk)
    · intro k hk
      cases k with
      | zero =>
        simp only [List.getD_cons_succ, List.getD_cons_zero]
        exact hlt2
      | succ k1 =>
        simp only [List.getD_cons_succ]
        exact hstr2 k1 (by omega)


theorem activeCount_le_length (vs : List Inst.Voice) :
    activeCount vs ≤ vs.length := List.countP_le_length _

/-- Replacing one slot changes the active count by the difference between
the new and the old slot's activity. -/
theorem countP_set_add (p : Inst.Voice → Bool) :
    ∀ (l : List Inst.Voice) (n : ℕ) (a : Inst.Voice), n < l.length →
      (l.set n a).countP p + (if p (l.getD n Inst.voice0) then 1 else 0)
        = l.countP p + (if p a then 1 else 0) := by
  intro l
  induction l with
  | nil => intro n a h; simp at h
  | cons x t ih =>
    intro n a h
    cases n with
    | zero =>
      simp only [List.set_cons_zero, List.getD_cons_zero, List.countP_cons]
      split_ifs <;> omega
    | succ n1 =>
      have h1 : n1 < t.length := by simpa using h
      have := ih n1 a h1
      simp only [List.set_cons_succ, List.getD_cons_succ, List.countP_cons]
      split_ifs at this ⊢ <;> omega

/-- Replacing an inactive slot with an active voice raises the count. -/
theorem countP_set_inactive_to_active (l : List Inst.Voice) (n : ℕ)
    (a : Inst.Voice) (h : n < l.length)
    (hold : (l.getD n Inst.voice0).active = false) (hnew : a.active = true) :
    (l.set n a).countP (fun v => v.active) = l.countP (fun v => v.active) + 1 := by
  have hmain := countP_set_add (fun v => v.active) l n a h
  simp only [hold, hnew] at hmain
  simpa using hmain

/-- Replacing an active slot with an active voice keeps the count. -/
theorem countP_set_active_to_active (l : List Inst.Voice) (n : ℕ)
    (a : Inst.Voice) (h : n < l.length)
    (hold : (l.getD n Inst.voice0).active = true) (hnew : a.active = true) :
    (l.set n a).countP (fun v => v.active) = l.countP (fun v => v.active) := by
  have hmain := countP_set_add (fun v => v.active) l n a h
  simp only [hold, hnew] at hmain
  omega

/-- A pool with an inactive voice has a first inactive slot. -/
theorem exists_first_inactive :
    ∀ (vs : List Inst.Voice), (∃ v ∈ vs, v.active = false) →
      ∃ m, m < vs.length ∧ (vs.getD m Inst.voice0).active = false
        ∧ ∀ k, k < m → (vs.getD k Inst.voice0).active = true := by
  intro vs
  induction vs with
  | nil => intro h; simp at h
  | cons v rest ih =>
    intro hex
    by_cases hv : v.active = false
    · exact ⟨0, by simp, by simpa using hv, by omega⟩
    · have hva : v.active = true := by
        cases hb : v.active
        · exact absurd hb hv
        · rfl
      have hex2 : ∃ w ∈ rest, w.active = false := by
        obtain ⟨w, hw, hwa⟩ := hex
        rcases List.mem_cons.1 hw with rfl | hw2
        · exact absurd hwa hv
        · exact ⟨w, hw2, hwa⟩
      obtain ⟨m, hm, hmin, hbefore⟩ := ih hex2
      refine ⟨m+1, by simpa using Nat.succ_lt_succ hm, by simpa using hmin, ?_⟩
      intro k hk
      cases k with
      | zero => simpa using hva
      | succ k1 =>
        simp only [List.getD_cons_succ]
        exact hbefore k1 (by omega)

theorem noteOn_voices_length (T : Transc) (s : Inst.State) (note vel ch : ℤ) :
    (Inst.noteOn T s note vel ch).voices.length = s.voices.length := by
  by_cases hv : vel = 0
  · simp [Inst.noteOn, Inst.noteOff, hv]
  · simp [Inst.noteOn, hv]

/-- A nonzero-velocity `noteOn` raises the active count by one when a free
slot exists and leaves it unchanged (at capacity) otherwise. -/
theorem activeCount_noteOn (T : Transc) (s : Inst.State) (note vel ch : ℤ)
    (hv : vel ≠ 0) (hne : s.voices ≠ []) :
    activeCount (Inst.noteOn T s note vel ch).voices
      = if activeCount s.voices < s.voices.length
        then activeCount s.voices + 1 else activeCount s.voices := by
  have hj : Inst.chooseVoice s.voices < s.voices.length :=
    chooseVoice_lt_length _ hne
  simp only [Inst.noteOn, if_neg hv]
  by_cases hall : ∀ v ∈ s.voices, v.active = true
  · have hcount : activeCount s.voices = s.voices.length :=
      List.countP_eq_length.2 (fun v hv2 => by simpa using hall v hv2)
    have hold : (s.voices.getD (Inst.chooseVoice s.voices) Inst.voice0).active = true :=
      hall _ (getD_mem _ _ _ hj)
    have hset := countP_set_active_to_active s.voices (Inst.chooseVoice s.voices)
      (Inst.startVoice T s.sampleRate note vel
        (s.voices.getD (Inst.chooseVoice s.voices) Inst.voice0)) hj hold rfl
    rw [if_neg (by omega)]
    unfold activeCount
    omega
  · push_neg at hall
    obtain ⟨w, hw, hwa⟩ := hall
    have hwa2 : w.active = false := by
      cases hb : w.active
      · rfl
      · exact absurd hb hwa
    obtain ⟨m, hm, hmin, hbefore⟩ := exists_first_inactive s.voices ⟨w, hw, hwa2⟩
    have hcj : Inst.chooseVoice s.voices = m := by
      have := scanVoices_first_inactive s.voices 0 0 0 m hm hmin hbefore
      simpa [Inst.chooseVoice] using this
    have hlt : activeCount s.voices < s.voices.length := by
      have hle := activeCount_le_length s.voices
      have hne2 : activeCount s.voices ≠ s.voices.length := by
        intro hc
        have := List.countP_eq_length.1 hc w hw
        simp [hwa2] at this
      omega
    rw [if_pos hlt, hcj]
    have hset2 := countP_set_inactive_to_active s.voices m
      (Inst.startVoice T s.sampleRate note vel (s.voices.getD m Inst.voice0)) hm hmin rfl
    unfold activeCount
    omega


/-- After `k` note-ons on the freshly initialised 16-voice pool, exactly
`min k 16` voices are active. -/
theorem noteOnIter_activeCount (T : Transc) :
    ∀ k : ℕ,
      (noteOnIter T k (Inst.init 44100 128 Inst.state0)).voices.length = 16
      ∧ activeCount (noteOnIter T k (Inst.init 44100 128 Inst.state0)).voices
          = min k 16 := by
  intro k
  induction k with
  | zero =>
    constructor
    · simp [noteOnIter, Inst.init, Inst.maxVoices]
    · simp only [noteOnIter]
      rw [Nat.min_eq_left (by omega)]
      refine List.countP_eq_zero.2 ?_
      intro v hv
      simp only [Inst.init, Inst.maxVoices] at hv
      rw [List.eq_of_mem_replicate hv]
      simp [Inst.voice0]
  | succ k1 ih =>
    obtain ⟨ihlen, ihcount⟩ := ih
    have hne : (noteOnIter T k1 (Inst.init 44100 128 Inst.state0)).voices ≠ [] := by
      intro hc
      rw [hc] at ihlen
      simp at ihlen
    constructor
    · simp only [noteOnIter]
      rw [noteOn_voices_length, ihlen]
    · simp only [noteOnIter]
      rw [activeCount_noteOn T _ 60 100 0 (by omega) hne, ihlen, ihcount]
      split_ifs with hc <;> omega

/-- C3: the voice pool never exceeds its 16-voice capacity — after `k`
note-ons with nonzero velocity and no note-offs from the initial state,
exactly `min k 16` voices are active (so 17 note-ons leave exactly 16);
`noteOn` prefers the lowest-index inactive slot; when every slot is active
it steals the slot holding the leftmost minimal envelope, the scan
unconditionally admitting index 0 as its first stealing candidate; and a
nonzero-velocity `noteOn` rewrites exactly the chosen slot. -/
theorem C3_voice_pool_capacity_and_stealing
    (T : Transc) (s : Inst.State) (note vel ch : ℤ) :
    (∀ k : ℕ, activeCount (noteOnIter T k (Inst.init 44100 128 Inst.state0)).voices
        = min k 16)
    ∧ activeCount (noteOnIter T 17 (Inst.init 44100 128 Inst.state0)).voices = 16
    ∧ (∀ (vs : List Inst.Voice) (m : ℕ), m < vs.length →
        (vs.getD m Inst.voice0).active = false →
        (∀ k, k < m → (vs.getD k Inst.voice0).active = true) →
        Inst.chooseVoice vs = m)
    ∧ (∀ vs : List Inst.Voice, vs ≠ [] → (∀ v ∈ vs, v.active = true) →
        Inst.chooseVoice vs < vs.length
        ∧ (∀ k, k < vs.length →
            (vs.getD (Inst.chooseVoice vs) Inst.voice0).envelope
              ≤ (vs.getD k Inst.voice0).envelope)
        ∧ (∀ k, k < Inst.chooseVoice vs →
            (vs.getD (Inst.chooseVoice vs) Inst.voice0).envelope
              < (vs.getD k Inst.voice0).envelope))
    ∧ (∀ (v : Inst.Voice) (rest : List Inst.Voice), v.active = true →
        Inst.chooseVoice (v :: rest) = Inst.scanVoices rest 1 v.envelope 0)
    ∧ (vel ≠ 0 → (Inst.noteOn T s note vel ch).voices
        = s.voices.set (Inst.chooseVoice s.voices)
            (Inst.startVoice T s.sampleRate note vel
              (s.voices.getD (Inst.chooseVoice s.voices) Inst.voice0))) := by
  refine ⟨fun k => (noteOnIter_activeCount T k).2, ?_,
    fun vs m hm hmin hb => by
      have := scanVoices_first_inactive vs 0 0 0 m hm hmin hb
      simpa [Inst.chooseVoice] using this,
    fun vs hne hall => chooseVoice_steals_quietest vs hne hall,
    fun v rest hva => ?_, fun hv => by simp [Inst.noteOn, hv]⟩
  · rw [(noteOnIter_activeCount T 17).2]
    omega
  · have hva2 : ¬ v.active = false := by simp [hva]
    simp [Inst.chooseVoice, Inst.scanVoices, hva2]

/-- Witness for C3: 17 note-ons on the fresh 16-voice pool leave exactly
16 active voices. -/
theorem C3_voice_pool_capacity_and_stealing_w :
    activeCount (noteOnIter T0 17 (Inst.init 44100 128 Inst.state0)).voices = 16 :=
  (C3_voice_pool_capacity_and_stealing T0 Inst.state0 60 100 0).2.1

-- ===========================================================================
-- C5: the mixer
-- ===========================================================================


theorem voiceStep_contrib (T : Transc) (sr : ℚ) (ps : List ℚ) (bend : ℚ)
    (wf : ℤ) (v : Inst.Voice) (ns : ℕ) :
    (Inst.voiceStep T sr ps bend wf v ns).2.2 = contribOf T sr ps bend wf v ns := by
  by_cases ha : v.active
  · simp only [Inst.voiceStep, contribOf, if_pos ha]
    rfl
  · simp [Inst.voiceStep, contribOf, ha]

theorem generateOscillator_ns (T : Transc) (wf : ℤ) (v : Inst.Voice) (ns : ℕ) :
    (Inst.generateOscillator T wf v ns).2.2
      = if wf = 4 then Inst.noiseStep ns else ns := by
  simp only [Inst.generateOscillator]
  by_cases h0 : wf = 0
  · simp [h0]
  by_cases h1 : wf = 1
  · simp [h0, h1]
  by_cases h2 : wf = 2
  · simp [h0, h1, h2]
  by_cases h3 : wf = 3
  · simp [h0, h1, h2, h3]
  by_cases h4 : wf = 4
  · simp [h0, h1, h2, h3, h4]
  · simp [h0, h1, h2, h3, h4]

theorem voiceStep_ns (T : Transc) (sr : ℚ) (ps : List ℚ) (bend : ℚ)
    (wf : ℤ) (v : Inst.Voice) (ns : ℕ) :
    (Inst.voiceStep T sr ps bend wf v ns).2.1 = nsAfterVoice wf v ns := by
  by_cases ha : v.active
  · simp only [Inst.voiceStep, if_pos ha]
    rw [generateOscillator_ns]
    simp [nsAfterVoice, ha]
  · simp [Inst.voiceStep, nsAfterVoice, ha]

theorem voicesStep_sum (T : Transc) (sr : ℚ) (ps : List ℚ) (bend : ℚ) (wf : ℤ) :
    ∀ (vs : List Inst.Voice) (ns : ℕ),
      (Inst.voicesStep T sr ps bend wf vs ns).2.2 = mixSum T sr ps bend wf vs ns := by
  intro vs
  induction vs with
  | nil => intro ns; rfl
  | cons v rest ih =>
    intro ns
    simp only [Inst.voicesStep, mixSum]
    rw [voiceStep_contrib, voiceStep_ns, ih]

theorem processSample_out (T : Transc) (s : Inst.State) :
    (Inst.processSample T s).2
      = T.tanhf (mixSum T s.sampleRate s.params s.pitchBendValue
          (Inst.truncQ (s.params.getD 0 0)) s.voices s.noiseState
          * s.masterVolume) := by
  simp only [Inst.processSample]
  rw [voicesStep_sum]

theorem stateAt_shift (T : Transc) (s : Inst.State) :
    ∀ i : ℕ, stateAt T (Inst.processSample T s).1 i = stateAt T s (i+1) := by
  intro i
  induction i with
  | zero => rfl
  | succ m ih =>
    show (Inst.processSample T (stateAt T (Inst.processSample T s).1 m)).1
        = (Inst.processSample T (stateAt T s (m+1))).1
    rw [ih]

theorem process_length (T : Transc) :
    ∀ (n : ℕ) (s : Inst.State), (Inst.process T n s).2.length = 2 * n := by
  intro n
  induction n with
  | zero => intro s; rfl
  | succ m ih =>
    intro s
    simp only [Inst.process, List.length_cons]
    rw [ih]
    omega

theorem process_getD (T : Transc) :
    ∀ (n : ℕ) (s : Inst.State) (i : ℕ), i < n →
      (Inst.process T n s).2.getD (2*i) 0 = (Inst.processSample T (stateAt T s i)).2
      ∧ (Inst.process T n s).2.getD (2*i+1) 0
          = (Inst.processSample T (stateAt T s i)).2 := by
  intro n
  induction n with
  | zero => intro s i hi; omega
  | succ m ih =>
    intro s i hi
    cases i with
    | zero => exact ⟨rfl, rfl⟩
    | succ i1 =>
      have h2 : 2*(i1+1) = (2*i1) + 1 + 1 := by ring
      have h3 : 2*(i1+1)+1 = ((2*i1)+1) + 1 + 1 := by ring
      have hlt : i1 < m := by omega
      have hmain := ih (Inst.processSample T s).1 i1 hlt
      constructor
      · rw [h2]
        simp only [Inst.process, List.getD_cons_succ]
        rw [hmain.1, stateAt_shift]
      · rw [h3]
        simp only [Inst.process, List.getD_cons_succ]
        rw [hmain.2, stateAt_shift]

/-- C5: each output sample of the instrument's `process` is written to both
interleaved stereo channels and equals
`tanh(sum * masterVolume)` where `sum` totals, over the voices active at the
start of that sample, `filteredOutput * envelope * velocity` with the
envelope level read before `updateEnvelope` advances it for that sample
(`mixSum`/`contribOf` read the pre-update level, while the state advances by
`processSample`, which updates the envelope after the contribution). -/
theorem C5_mixer_tanh_per_sample (T : Transc) (s : Inst.State) (n i : ℕ)
    (h : i < n) :
    (Inst.process T n s).2.length = 2 * n
    ∧ (Inst.process T n s).2.getD (2*i) 0 = (Inst.process T n s).2.getD (2*i+1) 0
    ∧ (Inst.process T n s).2.getD (2*i) 0
        = T.tanhf (mixSum T (stateAt T s i).sampleRate (stateAt T s i).params
            (stateAt T s i).pitchBendValue
            (Inst.truncQ ((stateAt T s i).params.getD 0 0))
            (stateAt T s i).voices (stateAt T s i).noiseState
            * (stateAt T s i).masterVolume)
    ∧ stateAt T s (i+1) = (Inst.processSample T (stateAt T s i)).1 := by
  obtain ⟨h1, h2⟩ := process_getD T n s i h
  refine ⟨process_length T n s, by rw [h1, h2], ?_, rfl⟩
  rw [h1, processSample_out]

/-- Witness for C5 at a one-sample run from the initial state. -/
theorem C5_mixer_tanh_per_sample_w :
    (Inst.process T0 1 Inst.state0).2.getD 0 0
      = (Inst.process T0 1 Inst.state0).2.getD 1 0 := by
  have := (C5_mixer_tanh_per_sample T0 Inst.state0 1 0 (by omega)).2.1
  simpa using this

end AnkhWave
